import Mathlib

/-!
# The Fibonacci heap of `Project3/fib_heap.h`

A shallow embedding of the class template `fib_heap<TYPE, COMP>` and of its member
functions `enqueue`, `dequeue_min`, `get_min`, `size`, `empty`, `consolidate` and
`Fib_Heap_Link`, followed by theorems about them.

Reading of the source that the embedding fixes:

* `TYPE` is instantiated at `int` (the condition `if (x.key = y.key)` of `consolidate`
  converts a key to `bool`), keys are `Int`; `size_type` is `unsigned`, arithmetic on
  `n` is taken modulo `2 ^ 32`.
* `std::list<node>` is a `List node`; an iterator of `root_list` is a position in it,
  `root_list.end()`, or an iterator whose element has been erased (`iterator`).
* An assignment *through* an iterator or pointer that designates no element of the
  root list (`*this->min_node = *new_node` with `min_node == root_list.end()`,
  `*A[d] = x`, `*temp->parent = x`) is undefined in C++; the iterator or pointer itself
  is not assigned.  The file has two readings of these stores.  The members `enqueue`,
  `Fib_Heap_Link`, `first_pass`, `consolidate` and `dequeue_min` take such a store as a
  store without effect, the most favourable thing it can do: what fails on them fails
  whatever the store does.  The members `enqueue_checked`, `Fib_Heap_Link_checked`,
  `first_pass_checked`, `consolidate_checked` and `dequeue_min_checked` take it as a
  fault, with the outcome `Result.undefined`.
* A read through such an iterator has no value: the member function has the outcome
  `Result.undefined`.
* Expressions of the source that do not type-check are read as follows:
  `return z;` in `dequeue_min` returns the key of the node `z` designated on entry,
  `return min_node;` in `get_min` returns the key of the element `min_node` designates,
  `A[it]` in the last loop of `consolidate` reads the table at the position of `it`, and
  the initialiser `children_list = NULL` is the empty list.
  `std::list::remove` needs `operator==` on `node`, which the source does not declare:
  it is member-wise equality (`node.eq`).
* The table `A` of `consolidate` is the list of the cells `0 .. size_of_A` that the
  initialisation loop assigns, and a cell outside of it reads as `root_list.end()`; the
  table of `consolidate_checked` has the `size_of_A` cells the source declares, and an
  access outside of them is a fault.
  `floor(log(n0) / log(1.618))` is computed on integers, without rounding.
-/

namespace FibHeap

/-! ## Data model -/

/-- The `struct node` of the source: `key`, `parent`, `children_list`, `degree`, with the
default member initialisers `NULL` (here `none`), the empty list and `0`. -/
structure node where
  key : Int
  parent : Option Nat
  children_list : List node
  degree : Nat

mutual
/-- Member-wise equality of two nodes, the `operator==` that `std::list::remove` uses. -/
def node.eq : node → node → Bool
  | ⟨k1, p1, c1, d1⟩, ⟨k2, p2, c2, d2⟩ =>
    decide (k1 = k2) && decide (p1 = p2) && node.eq_list c1 c2 && decide (d1 = d2)
/-- Element-wise equality of two children lists. -/
def node.eq_list : List node → List node → Bool
  | [], [] => true
  | a :: as, b :: bs => node.eq a b && node.eq_list as bs
  | _, _ => false
end

mutual
/-- The number of nodes of the tree rooted at a node: the node and all its descendants. -/
def node.count : node → Nat
  | ⟨_, _, c, _⟩ => 1 + node.count_list c
/-- The number of nodes of a forest. -/
def node.count_list : List node → Nat
  | [] => 0
  | a :: as => node.count a + node.count_list as
end

mutual
/-- The keys stored in the tree rooted at a node, the key of the root first. -/
def node.keys : node → List Int
  | ⟨k, _, c, _⟩ => k :: node.keys_list c
/-- The keys stored in a forest. -/
def node.keys_list : List node → List Int
  | [] => []
  | a :: as => node.keys a ++ node.keys_list as
end

/-- An iterator of `root_list`: the position of an element, `root_list.end()`, or an
iterator whose element has been erased from the list. -/
inductive iterator where
  | pos (p : Nat)
  | end_list
  | dangling
deriving DecidableEq, Repr

/-- The outcome of a member function: it returns a value, it raises the `EmptyHeap` error
that the specification names (no statement of the source raises it), it reads through an
iterator that designates no element, or the loop budget of the embedding is used up. -/
inductive Result (α : Type) where
  | value (a : α)
  | EmptyHeap
  | undefined
  | out_of_fuel
deriving DecidableEq, Repr

/-- Sequencing of outcomes. -/
def Result.bind {α β : Type} (r : Result α) (f : α → Result β) : Result β :=
  match r with
  | .value a => f a
  | .EmptyHeap => .EmptyHeap
  | .undefined => .undefined
  | .out_of_fuel => .out_of_fuel

/-- The data members of `fib_heap`: the functor `compare`, the element count `n`, the
iterator `min_node` and the list `root_list`. -/
structure fib_heap where
  compare : Int → Int → Bool
  n : Nat
  min_node : iterator
  root_list : List node

/-- The modulus of `size_type` (`unsigned`). -/
def size_type_mod : Nat := 2 ^ 32

/-- The default comparison functor `std::less<TYPE>`. -/
def std_less (a b : Int) : Bool := decide (a < b)

/-- The reversed comparison functor `std::greater<TYPE>`. -/
def std_greater (a b : Int) : Bool := decide (a > b)

/-- The element an iterator designates, if any. -/
def deref (l : List node) : iterator → Option node
  | .pos p => l[p]?
  | .end_list => none
  | .dangling => none

/-- The iterator `l.begin()`. -/
def list_begin (l : List node) : iterator :=
  if l.length = 0 then .end_list else .pos 0

/-- The iterator after `it++`. -/
def advance (l : List node) : iterator → iterator
  | .pos p => if p + 1 < l.length then .pos (p + 1) else .end_list
  | .end_list => .dangling
  | .dangling => .dangling

/-- The list after `l.remove(v)`: every element equal to `v` is erased. -/
def remove (l : List node) (v : node) : List node :=
  l.filter (fun e => !(node.eq e v))

/-- Where an iterator of `l` points after `l.remove(v)`: an iterator of an erased element
dangles, the others designate the same element at its new position. -/
def relocate (l : List node) (v : node) : iterator → iterator
  | .pos p =>
    match l[p]? with
    | some e => if node.eq e v then .dangling else .pos (remove (l.take p) v).length
    | none => .dangling
  | .end_list => .end_list
  | .dangling => .dangling

/-! ## Member functions -/

/-- The constructor `fib_heap(COMP comp)`: `n = 0`, `compare = comp`,
`min_node = root_list.end()`. -/
def fib_heap.construct (comp : Int → Int → Bool) : fib_heap :=
  { compare := comp, n := 0, min_node := .end_list, root_list := [] }

/-- The member `size()`: `return this->n`. -/
def fib_heap.size (h : fib_heap) : Nat := h.n

/-- The member `empty()`: `return this->size() == 0`. -/
def fib_heap.empty (h : fib_heap) : Bool := decide (h.size = 0)

/-- The node of `node *new_node = new node; new_node->key = val;`: the key `val` and the
default members. -/
def new_node (val : Int) : node :=
  { key := val, parent := none, children_list := [], degree := 0 }

/-- The member `enqueue(val)`.  When `min_node == root_list.end()` the new node is pushed to
the front and assigned through `min_node`, which stays `end()`; `n` is not touched.
Otherwise the new node is pushed to the back, the element at `min_node` is overwritten by
the new node when `val < min_node->key` (the built-in `<`, not `compare`), and `n` is
incremented.  The store through `root_list.end()` of the first branch is taken as a store
without effect; `enqueue_checked` takes it as a fault. -/
def enqueue (h : fib_heap) (val : Int) : Result fib_heap :=
  if h.min_node = iterator.end_list then
    .value { h with root_list := new_node val :: h.root_list }
  else
    let roots := h.root_list ++ [new_node val]
    match h.min_node, deref roots h.min_node with
    | .pos p, some m =>
      if val < m.key then
        .value { h with root_list := roots.set p (new_node val),
                        n := (h.n + 1) % size_type_mod }
      else
        .value { h with root_list := roots, n := (h.n + 1) % size_type_mod }
    | _, _ => .undefined

/-- The member `get_min()`: `return min_node`, the key of the element `min_node`
designates. -/
def get_min (h : fib_heap) : Result Int :=
  match deref h.root_list h.min_node with
  | some m => .value m.key
  | none => .undefined

/-- The member `Fib_Heap_Link(y, x)`.  Both parameters are passed by value:
`root_list.remove(y)` erases every root equal to `y`; `x.children_list.push_back(*temp)` and
`x.degree++` act on the local copy `x` and are lost at return; `*temp->parent = x` assigns
through `y.parent`, which is null in every node the source creates, and is taken as a store
without effect; `Fib_Heap_Link_checked` has the store as it stands. -/
def Fib_Heap_Link (h : fib_heap) (y _x : node) : fib_heap :=
  { h with root_list := remove h.root_list y }

/-- The search behind `log_floor`: the largest `k`, at most `fuel` above the start, with
`1.618 ^ k ≤ n`. -/
def log_floor_from (n : Nat) : Nat → Nat → Nat
  | 0, k => k
  | fuel + 1, k =>
    if 1618 ^ (k + 1) ≤ n * 1000 ^ (k + 1) then log_floor_from n fuel (k + 1) else k

/-- The value `floor(log(n) / log(1.618))` for `n ≥ 1`, computed exactly on integers. -/
def log_floor (n : Nat) : Nat := log_floor_from n n 0

/-- The local `size_of_A` of `consolidate`: `floor(log(n0) / log(1.618)) + 1`. -/
def size_of_A (n : Nat) : Nat := log_floor n + 1

/-- The variables of the first loop of `consolidate`: the heap, the table `A` and the loop
iterator `it`. -/
structure pass where
  heap : fib_heap
  A : List iterator
  it : iterator

/-- One run of the body of `while (A[d] != root_list.end())`: `y` is a copy of `*A[d]`;
`x.key = y.key` is an assignment whose value is converted to `bool`; when it is non-zero
`x` and `y` are swapped and `it` and `A[d]` are exchanged; then `Fib_Heap_Link(y, x)`,
`A[d] = root_list.end()`.  The iterators kept in `A` and `it` follow their elements across
the `remove` of `Fib_Heap_Link`.  Returns the new loop variables and the new `x`. -/
def collision_step (s : pass) (x : node) (d : Nat) : Result (pass × node) :=
  match deref s.heap.root_list (s.A.getD d .end_list) with
  | none => .undefined
  | some e =>
    let y : node :=
      { key := e.key, parent := e.parent, children_list := e.children_list, degree := e.degree }
    let x1 : node := { x with key := y.key }
    let swapped : Bool := decide (x1.key ≠ 0)
    let x2 : node := if swapped then y else x1
    let y2 : node := if swapped then x1 else y
    let it2 : iterator := if swapped then s.A.getD d .end_list else s.it
    let A2 : List iterator := if swapped then s.A.set d s.it else s.A
    let heap2 := Fib_Heap_Link s.heap y2 x2
    let A3 := (A2.map (relocate s.heap.root_list y2)).set d .end_list
    .value ({ heap := heap2, A := A3, it := relocate s.heap.root_list y2 it2 }, x2)

/-- The loop `while (A[d] != root_list.end()) { ...; d++; }` with a budget of iterations.
Returns the loop variables, `x` and `d` at exit. -/
def collide : Nat → pass → node → Nat → Result (pass × node × Nat)
  | 0, _, _, _ => .out_of_fuel
  | fuel + 1, s, x, d =>
    if s.A.getD d .end_list = iterator.end_list then .value (s, x, d)
    else (collision_step s x d).bind (fun r => collide fuel r.1 r.2 (d + 1))

/-- The loop `for (it = root_list.begin(); it != root_list.end(); it++)` of lines 141-164
with a budget of iterations: `x = *it`, `d = x.degree`, the collision loop, then
`*A[d] = x`, an assignment through `A[d] == root_list.end()`, taken as a store without
effect that leaves `A` and the root list as they are; `first_pass_checked` takes it as a
fault. -/
def first_pass : Nat → pass → Result pass
  | 0, _ => .out_of_fuel
  | fuel + 1, s =>
    match s.it with
    | .end_list => .value s
    | .dangling => .undefined
    | .pos p =>
      match s.heap.root_list[p]? with
      | none => .undefined
      | some x =>
        (collide (s.A.length + 1) s x x.degree).bind (fun r =>
          match r.1.it with
          | .pos q =>
            if q < r.1.heap.root_list.length then
              first_pass fuel { r.1 with it := advance r.1.heap.root_list r.1.it }
            else .undefined
          | _ => .undefined)

/-- The loop `for (it = root_list.begin(); it != root_list.end(); it++)` of lines 166-179
with a budget of iterations: when `A[it]` is not `end()`, `*A[it]` is pushed to the back of
the root list, and `min_node` becomes `A[it]` if it was `end()` or if
`(*A[it]).key < (*min_node).key`. -/
def rebuild : Nat → fib_heap → List iterator → iterator → Result fib_heap
  | 0, _, _, _ => .out_of_fuel
  | fuel + 1, h, A, it =>
    match it with
    | .end_list => .value h
    | .dangling => .undefined
    | .pos p =>
      if p < h.root_list.length then
        let a := A.getD p .end_list
        if a = iterator.end_list then rebuild fuel h A (advance h.root_list it)
        else
          match deref h.root_list a with
          | none => .undefined
          | some e =>
            let roots := h.root_list ++ [e]
            if h.min_node = iterator.end_list then
              rebuild fuel { h with root_list := roots, min_node := a } A (advance roots it)
            else
              match deref roots h.min_node with
              | none => .undefined
              | some m =>
                if e.key < m.key then
                  rebuild fuel { h with root_list := roots, min_node := a } A (advance roots it)
                else
                  rebuild fuel { h with root_list := roots } A (advance roots it)
      else .undefined

/-- The member `consolidate()`.  The initialisation loop `for (i = 0; i <= size_of_A; i++)`
sets the cells `0 .. size_of_A` of `A` to `root_list.end()`, the last of them outside the
`size_of_A` cells the source declares; then the first loop over the roots,
`min_node = root_list.end()`, and the second loop.  `consolidate_checked` has the table of
`size_of_A` cells. -/
def consolidate (h : fib_heap) : Result fib_heap :=
  let A : List iterator := List.replicate (size_of_A h.n + 1) iterator.end_list
  (first_pass (h.root_list.length + 1) { heap := h, A := A, it := list_begin h.root_list }).bind
    (fun s =>
      rebuild (s.heap.root_list.length + 1) { s.heap with min_node := .end_list } s.A
        (list_begin s.heap.root_list))

/-- The member `dequeue_min()`.  `z` is the element `min_node` designates (the test
`z != NULL` cannot fail); the children of `z` are moved to the back of the root list, last
child first, with their members as they are; `root_list.remove(*z)` erases every root equal
to `*z`; `n` is decremented; `min_node` becomes `end()` when `n == 0`, otherwise
`consolidate()` runs; the key of `z` is returned. -/
def dequeue_min (h : fib_heap) : Result (Int × fib_heap) :=
  match h.min_node, deref h.root_list h.min_node with
  | .pos p, some z =>
    let z1 : node := { z with children_list := [] }
    let roots1 := h.root_list.set p z1 ++ z.children_list.reverse
    let h1 : fib_heap :=
      { h with root_list := remove roots1 z1,
               min_node := relocate roots1 z1 h.min_node,
               n := (h.n + size_type_mod - 1) % size_type_mod }
    if h1.n = 0 then .value (z.key, { h1 with min_node := .end_list })
    else (consolidate h1).bind (fun h2 => .value (z.key, h2))
  | _, _ => .undefined

/-! ## Sequences of operations -/

/-- A call of one of the two mutating public members. -/
inductive Op where
  | enqueue (val : Int)
  | dequeue_min
deriving DecidableEq, Repr

/-- The heap after one call; the value `dequeue_min` returns is dropped. -/
def apply_op (h : fib_heap) : Op → Result fib_heap
  | .enqueue val => enqueue h val
  | .dequeue_min => (dequeue_min h).bind (fun r => .value r.2)

/-- The heap after a sequence of calls, each of which has to return. -/
def run (h : fib_heap) : List Op → Result fib_heap
  | [] => .value h
  | op :: ops => (apply_op h op).bind (fun h1 => run h1 ops)

/-- The states the public members reach from a freshly constructed heap. -/
def Reachable (h : fib_heap) : Prop :=
  ∃ (comp : Int → Int → Bool) (ops : List Op), run (fib_heap.construct comp) ops = .value h

/-- The keys held by a heap: the keys of all nodes of its forest, as a multiset. -/
def fib_heap.held (h : fib_heap) : Multiset Int := (node.keys_list h.root_list : List Int)

/-- The same heap state with another comparison functor stored in `compare`. -/
def with_compare (h : fib_heap) (c : Int → Int → Bool) : fib_heap :=
  { h with compare := c }

/-- The number of nodes reachable from the root list: the roots and all their
descendants. -/
def fib_heap.node_count (h : fib_heap) : Nat := node.count_list h.root_list

/-! ## Auxiliary notions -/

/-- The Fibonacci numbers: 0, 1, 1, 2, 3, 5, ... -/
def fib : Nat → Nat
  | 0 => 0
  | 1 => 1
  | n + 2 => fib n + fib (n + 1)

/-- The values of `i` for which the body `A[i] = root_list.end()` of the loop
`for (i = 0; i <= size_of_A; i++)` runs, for the element count `n`. -/
def init_loop_indices (n : Nat) : List Nat := List.range (size_of_A n + 1)

/-- The arguments `(y, x)` of the call `Fib_Heap_Link(y, x)` in the body of the collision
loop, after the assignment `x.key = y.key` and the swap. -/
def link_arguments (s : pass) (x : node) (d : Nat) : Option (node × node) :=
  match deref s.heap.root_list (s.A.getD d .end_list) with
  | none => none
  | some e =>
    let y : node :=
      { key := e.key, parent := e.parent, children_list := e.children_list, degree := e.degree }
    let x1 : node := { x with key := y.key }
    let swapped : Bool := decide (x1.key ≠ 0)
    some (if swapped then x1 else y, if swapped then y else x1)

/-! ## The members with the undefined stores as faults

The members above take a store through an iterator or pointer that designates no element
as a store without effect.  In C++ such a store is undefined.  The members below are the
same translations with each of these stores, and each access outside the declared cells of
the table `A`, as a fault: the call has the outcome `Result.undefined` there. -/

theorem getD_replicate_end (k d : Nat) :
    (List.replicate k iterator.end_list).getD d iterator.end_list = iterator.end_list := by
  rw [List.getD_eq_getElem?_getD, List.getElem?_replicate]
  split <;> rfl

theorem collide_all_end (fuel : Nat) (s : pass) (x : node) (d : Nat)
    (hA : ∀ i, s.A.getD i iterator.end_list = iterator.end_list) :
    collide (fuel + 1) s x d = .value (s, x, d) := by
  rw [collide, if_pos (hA d)]

theorem first_pass_end (fuel : Nat) (h : fib_heap) (A : List iterator) :
    first_pass (fuel + 1) { heap := h, A := A, it := .end_list }
      = .value { heap := h, A := A, it := .end_list } := by
  simp [first_pass]

theorem first_pass_all_end (h : fib_heap) (A : List iterator)
    (hA : ∀ i, A.getD i iterator.end_list = iterator.end_list) :
    ∀ (fuel p : Nat), p < h.root_list.length → h.root_list.length - p ≤ fuel →
      first_pass (fuel + 1) { heap := h, A := A, it := .pos p }
        = .value { heap := h, A := A, it := .end_list } := by
  intro fuel
  induction fuel with
  | zero => intro p hp hf; omega
  | succ f ih =>
    intro p hp hf
    have hx : h.root_list[p]? = some (h.root_list[p]) := List.getElem?_eq_getElem hp
    rw [first_pass]
    simp only [hx]
    rw [collide_all_end _ _ _ _ hA]
    simp only [Result.bind, hp, if_true, advance]
    by_cases hq : p + 1 < h.root_list.length
    · simp only [hq, if_true]
      exact ih (p + 1) hq (by omega)
    · simp only [hq, if_false]
      exact first_pass_end f h A

theorem rebuild_end (fuel : Nat) (h : fib_heap) (A : List iterator) :
    rebuild (fuel + 1) h A .end_list = .value h := by
  simp [rebuild]

theorem rebuild_all_end (h : fib_heap) (A : List iterator)
    (hA : ∀ i, A.getD i iterator.end_list = iterator.end_list) :
    ∀ (fuel p : Nat), p < h.root_list.length → h.root_list.length - p ≤ fuel →
      rebuild (fuel + 1) h A (.pos p) = .value h := by
  intro fuel
  induction fuel with
  | zero => intro p hp hf; omega
  | succ f ih =>
    intro p hp hf
    rw [rebuild]
    simp only [hp, if_true, hA p, advance]
    by_cases hq : p + 1 < h.root_list.length
    · simp only [hq, if_true]
      exact ih (p + 1) hq (by omega)
    · simp only [hq, if_false]
      exact rebuild_end f h A

/-- On every heap state `consolidate` returns, and all it does is to set `min_node` to
`root_list.end()`: no cell of `A` ever holds a root, so the collision loop and the branch
of the last loop are never entered. -/
theorem consolidate_eq (h : fib_heap) :
    consolidate h = .value { h with min_node := .end_list } := by
  have hA := getD_replicate_end (size_of_A h.n + 1)
  unfold consolidate
  by_cases hl : h.root_list.length = 0
  · simp only [list_begin, hl, if_true]
    rw [first_pass_end]
    simp only [Result.bind, hl, if_true]
    rw [rebuild_end]
  · have hp : 0 < h.root_list.length := Nat.pos_of_ne_zero hl
    simp only [list_begin, hl, if_false]
    rw [first_pass_all_end h _ hA _ 0 hp (by omega)]
    simp only [Result.bind, hl, if_false]
    exact rebuild_all_end { h with min_node := .end_list } _ hA _ 0 hp (by simp)

/-! ## The public members on the two kinds of state -/

/-- What `dequeue_min` does on a heap whose `min_node` designates the root `z` at position
`p`. -/
theorem dequeue_min_pos (h : fib_heap) (p : Nat) (z : node)
    (hm : h.min_node = .pos p) (hz : h.root_list[p]? = some z) :
    dequeue_min h = .value (z.key,
      { h with root_list :=
                 remove (h.root_list.set p { z with children_list := [] }
                   ++ z.children_list.reverse) { z with children_list := [] },
               min_node := .end_list,
               n := (h.n + size_type_mod - 1) % size_type_mod }) := by
  unfold dequeue_min
  simp only [hm, deref, hz]
  split
  · rfl
  · rw [consolidate_eq]; rfl

theorem enqueue_end (h : fib_heap) (val : Int) (hm : h.min_node = .end_list) :
    enqueue h val = .value { h with root_list := new_node val :: h.root_list } := by
  simp [enqueue, hm]

theorem dequeue_min_end (h : fib_heap) (hm : h.min_node = .end_list) :
    dequeue_min h = .undefined := by
  simp [dequeue_min, hm, deref]

theorem get_min_end (h : fib_heap) (hm : h.min_node = .end_list) :
    get_min h = .undefined := by
  simp [get_min, hm, deref]

/-- A run that starts with `min_node == root_list.end()` keeps it there, and keeps `n` and
`compare`: `enqueue` takes its first branch and `dequeue_min` has no result. -/
theorem run_end_inv (ops : List Op) :
    ∀ (h h1 : fib_heap), h.min_node = .end_list → run h ops = .value h1 →
      h1.min_node = .end_list ∧ h1.n = h.n ∧ h1.compare = h.compare := by
  induction ops with
  | nil =>
    intro h h1 hm hr
    simp only [run, Result.value.injEq] at hr
    subst hr
    exact ⟨hm, rfl, rfl⟩
  | cons op ops ih =>
    intro h h1 hm hr
    cases op with
    | enqueue val =>
      simp only [run, apply_op, enqueue_end h val hm, Result.bind] at hr
      have hstep := ih { h with root_list := new_node val :: h.root_list } h1 hm hr
      exact hstep
    | dequeue_min =>
      simp [run, apply_op, dequeue_min_end h hm, Result.bind] at hr

/-- In every reachable state `min_node` is `root_list.end()` and `n` is `0`. -/
theorem reachable_inv (h : fib_heap) (hr : Reachable h) :
    h.min_node = .end_list ∧ h.n = 0 := by
  obtain ⟨comp, ops, hrun⟩ := hr
  have := run_end_inv ops (fib_heap.construct comp) h rfl hrun
  exact ⟨this.1, this.2.1⟩

/-- A run of `enqueue` calls from a state with `min_node == root_list.end()` pushes each
value to the front of the root list and changes nothing else. -/
theorem run_enqueues (vals : List Int) :
    ∀ (h : fib_heap), h.min_node = .end_list →
      run h (vals.map Op.enqueue)
        = .value { h with root_list := (vals.reverse.map new_node) ++ h.root_list } := by
  induction vals with
  | nil => intro h _; rfl
  | cons v vs ih =>
    intro h hm
    simp only [List.map_cons, run, apply_op, enqueue_end h v hm, Result.bind]
    rw [ih { h with root_list := new_node v :: h.root_list } hm]
    simp

theorem count_list_append (l r : List node) :
    node.count_list (l ++ r) = node.count_list l + node.count_list r := by
  induction l with
  | nil => simp [node.count_list]
  | cons a as ih => simp [node.count_list, ih, Nat.add_assoc]

theorem count_list_new_nodes (vals : List Int) :
    node.count_list (vals.map new_node) = vals.length := by
  induction vals with
  | nil => rfl
  | cons v vs ih =>
    simp [node.count_list, node.count, new_node, ih, Nat.add_comm]

/-! ## The contract of the public members -/

/-- C1, the scenario of the claim run on the code: after `enqueue` of 5, 3, 8, 1, 9 on a
fresh heap with the default comparator the root list holds the five nodes, but `empty()`
is already true before any extraction, and neither `get_min()` nor `dequeue_min()` has a
result, so no value of the sorted sequence 1, 3, 5, 8, 9 is returned. -/
theorem enqueue_five_then_drain :
    ∃ h : fib_heap,
      run (fib_heap.construct std_less)
        [.enqueue 5, .enqueue 3, .enqueue 8, .enqueue 1, .enqueue 9] = .value h ∧
      h.root_list = [new_node 9, new_node 1, new_node 8, new_node 3, new_node 5] ∧
      h.empty = true ∧ get_min h = .undefined ∧ dequeue_min h = .undefined :=
  ⟨_, rfl, rfl, rfl, rfl, rfl⟩

/-- C2, on the code: in every state reachable from a fresh heap, whatever it holds,
`get_min()` has no result, because `min_node` is still `root_list.end()`; it does not
return the smallest held key. -/
theorem get_min_undefined_of_reachable (h : fib_heap) (hr : Reachable h) :
    get_min h = .undefined :=
  get_min_end h (reachable_inv h hr).1

/-- Witness of C2: the state after `enqueue(5)` on a fresh heap holds the key 5, and
`get_min()` has no result on it. -/
theorem get_min_undefined_of_reachable_witness :
    Reachable { compare := std_less, n := 0, min_node := .end_list, root_list := [new_node 5] } ∧
    ({ compare := std_less, n := 0, min_node := .end_list,
       root_list := [new_node 5] } : fib_heap).held = {5} ∧
    get_min { compare := std_less, n := 0, min_node := .end_list, root_list := [new_node 5] }
      = .undefined :=
  ⟨⟨std_less, [.enqueue 5], rfl⟩, by decide,
   get_min_undefined_of_reachable _ ⟨std_less, [.enqueue 5], rfl⟩⟩

/-- C3 as stated fails on the code: on a freshly constructed heap neither `get_min()` nor
`dequeue_min()` raises the `EmptyHeap` error. -/
theorem fresh_heap_raises_no_EmptyHeap :
    ¬ (get_min (fib_heap.construct std_less) = .EmptyHeap ∨
       dequeue_min (fib_heap.construct std_less) = .EmptyHeap) := by
  rw [get_min_end _ rfl, dequeue_min_end _ rfl]
  simp

/-- C3 amended: on every heap whose `min_node` is `root_list.end()`, in particular a
freshly constructed one, `get_min()` and `dequeue_min()` return no value: both read
through `min_node` without a test for emptiness. -/
theorem no_result_when_min_is_end (h : fib_heap) (hm : h.min_node = .end_list) :
    get_min h = .undefined ∧ dequeue_min h = .undefined :=
  ⟨get_min_end h hm, dequeue_min_end h hm⟩

/-- Witness of C3 amended: the freshly constructed heap. -/
theorem no_result_when_min_is_end_witness :
    (fib_heap.construct std_less).min_node = .end_list ∧
    (fib_heap.construct std_less).size = 0 ∧
    get_min (fib_heap.construct std_less) = .undefined ∧
    dequeue_min (fib_heap.construct std_less) = .undefined :=
  ⟨rfl, rfl, no_result_when_min_is_end (fib_heap.construct std_less) rfl⟩

/-- C4, on the code: on every heap whose `min_node` is `root_list.end()`, the empty heap
included, `enqueue(v)` returns and leaves `size()` as it was; `n++` stands in the other
branch only. -/
theorem enqueue_keeps_size_when_min_is_end (h : fib_heap) (v : Int)
    (hm : h.min_node = .end_list) :
    ∃ h1 : fib_heap, enqueue h v = .value h1 ∧ h1.size = h.size ∧ h1.size ≠ h.size + 1 :=
  ⟨_, enqueue_end h v hm, rfl, by simp [fib_heap.size]⟩

/-- Witness of C4: `enqueue(5)` on the freshly constructed heap. -/
theorem enqueue_keeps_size_when_min_is_end_witness :
    (fib_heap.construct std_less).min_node = .end_list ∧
    ∃ h1 : fib_heap, enqueue (fib_heap.construct std_less) 5 = .value h1 ∧
      h1.size = (fib_heap.construct std_less).size ∧
      h1.size ≠ (fib_heap.construct std_less).size + 1 :=
  ⟨rfl, enqueue_keeps_size_when_min_is_end (fib_heap.construct std_less) 5 rfl⟩

/-- C5, on the code: after any number of `enqueue` calls on a fresh heap, `size()` is 0
while the number of nodes reachable from the root list is the number of calls. -/
theorem size_zero_after_enqueues (comp : Int → Int → Bool) (vals : List Int) :
    ∃ h : fib_heap, run (fib_heap.construct comp) (vals.map Op.enqueue) = .value h ∧
      h.size = 0 ∧ h.node_count = vals.length := by
  refine ⟨_, run_enqueues vals (fib_heap.construct comp) rfl, rfl, ?_⟩
  show node.count_list ((vals.reverse.map new_node) ++ []) = vals.length
  rw [List.append_nil, count_list_new_nodes, List.length_reverse]

/-- C10, on the code: after one or more `enqueue` calls on a fresh heap, `size()` is 0 and
`min_node` is `root_list.end()` although the root list is not empty: the three conditions
are not equivalent. -/
theorem roots_nonempty_size_zero_min_end (comp : Int → Int → Bool) (val : Int)
    (vals : List Int) :
    ∃ h : fib_heap,
      run (fib_heap.construct comp) ((val :: vals).map Op.enqueue) = .value h ∧
      h.size = 0 ∧ h.min_node = .end_list ∧ h.root_list ≠ [] := by
  refine ⟨_, run_enqueues (val :: vals) (fib_heap.construct comp) rfl, rfl, rfl, ?_⟩
  simp [fib_heap.construct]

/-- On a heap whose `min_node` is `root_list.end()`, and with the store of line 85 taken as
a store without effect, `enqueue(v)` adds one occurrence of `v` to the held keys. -/
theorem enqueue_held_when_min_is_end (h : fib_heap) (v : Int) (hm : h.min_node = .end_list) :
    ∃ h1 : fib_heap, enqueue h v = .value h1 ∧ h1.held = v ::ₘ h.held :=
  ⟨_, enqueue_end h v hm, by
    simp [fib_heap.held, node.keys_list, node.keys, new_node]⟩

/-- The second branch of `enqueue`, line 90: on the heap that holds the single root 3 with
`min_node` at it and `n = 1`, `enqueue(1)` pushes the node 1 and then overwrites the root 3
by a copy of the new node: the root list is 1, 1 and the held keys are not the former keys
plus one 1. -/
theorem enqueue_overwrites_min_root :
    ∃ h1 : fib_heap,
      enqueue { compare := std_less, n := 1, min_node := .pos 0, root_list := [new_node 3] } 1
        = .value h1 ∧
      h1.root_list = [new_node 1, new_node 1] ∧
      h1.held = {1, 1} ∧
      h1.held ≠ 1 ::ₘ ({ compare := std_less, n := 1, min_node := .pos 0,
                         root_list := [new_node 3] } : fib_heap).held :=
  ⟨_, rfl, rfl, by decide, by decide⟩

/-- C7, on the code: after `enqueue(5)` on a fresh heap the heap holds 5 but `dequeue_min()`
has no result; and on the heap with the two roots 3, 3, `min_node` at the first and `n = 2`,
`dequeue_min()` returns 3 and erases both roots, so that no key is held afterwards instead
of one 3. -/
theorem dequeue_min_loses_equal_roots :
    (∃ h : fib_heap, run (fib_heap.construct std_less) [.enqueue 5] = .value h ∧
      h.held = {5} ∧ dequeue_min h = .undefined) ∧
    (∃ h1 : fib_heap,
      dequeue_min { compare := std_less, n := 2, min_node := .pos 0,
                    root_list := [new_node 3, new_node 3] } = .value (3, h1) ∧
      h1.root_list = [] ∧ h1.held = 0 ∧ h1.size = 1) :=
  ⟨⟨_, rfl, by decide, rfl⟩, ⟨_, rfl, rfl, by decide, rfl⟩⟩

/-- On a heap on which `get_min()` returns a key, `dequeue_min()` returns the same key. -/
theorem dequeue_min_returns_get_min (h : fib_heap) (k : Int) (hg : get_min h = .value k) :
    ∃ h1 : fib_heap, dequeue_min h = .value (k, h1) := by
  unfold get_min at hg
  cases hm : h.min_node with
  | pos p =>
    rw [hm] at hg
    simp only [deref] at hg
    cases hz : h.root_list[p]? with
    | none => rw [hz] at hg; simp at hg
    | some z =>
      rw [hz] at hg
      simp only [Result.value.injEq] at hg
      subst hg
      exact ⟨_, dequeue_min_pos h p z hm hz⟩
  | end_list => rw [hm] at hg; simp [deref] at hg
  | dangling => rw [hm] at hg; simp [deref] at hg

/-- C8, on the code: in every state reachable from a fresh heap, whatever it holds,
`dequeue_min()` has no result: `z` is taken through `min_node == root_list.end()`. -/
theorem dequeue_min_undefined_of_reachable (h : fib_heap) (hr : Reachable h) :
    dequeue_min h = .undefined :=
  dequeue_min_end h (reachable_inv h hr).1

/-- Witness of C8: the state after `enqueue(5)` on a fresh heap holds the key 5, and
`dequeue_min()` has no result on it. -/
theorem dequeue_min_undefined_of_reachable_witness :
    Reachable { compare := std_less, n := 0, min_node := .end_list, root_list := [new_node 5] } ∧
    ({ compare := std_less, n := 0, min_node := .end_list,
       root_list := [new_node 5] } : fib_heap).held = {5} ∧
    dequeue_min { compare := std_less, n := 0, min_node := .end_list,
                  root_list := [new_node 5] } = .undefined :=
  ⟨⟨std_less, [.enqueue 5], rfl⟩, by decide,
   dequeue_min_undefined_of_reachable _ ⟨std_less, [.enqueue 5], rfl⟩⟩

/-- C9, on the code: the stored functor decides nothing.  On every heap state, replacing
`compare` by any other functor changes neither the outcome of `enqueue`, nor that of
`dequeue_min`, nor that of `get_min`, apart from the functor stored in the resulting
state: every key comparison is the built-in `<`. -/
theorem comparator_never_consulted (h : fib_heap) (c : Int → Int → Bool) (val : Int) :
    enqueue (with_compare h c) val
      = (enqueue h val).bind (fun h1 => .value (with_compare h1 c)) ∧
    dequeue_min (with_compare h c)
      = (dequeue_min h).bind (fun r => .value (r.1, with_compare r.2 c)) ∧
    get_min (with_compare h c) = get_min h := by
  refine ⟨?_, ?_, rfl⟩
  · unfold enqueue with_compare
    by_cases hm : h.min_node = iterator.end_list
    · simp [hm, Result.bind]
    · simp only [hm, if_false]
      split <;> rename_i heq <;> simp only [heq, Result.bind]
      split <;> rfl
  · cases hm : h.min_node with
    | pos p =>
      cases hz : h.root_list[p]? with
      | none => simp [dequeue_min, with_compare, hm, deref, hz, Result.bind]
      | some z =>
        rw [dequeue_min_pos h p z hm hz, dequeue_min_pos (with_compare h c) p z hm hz]
        rfl
    | end_list =>
      rw [dequeue_min_end h hm, dequeue_min_end (with_compare h c) hm]; rfl
    | dangling => simp [dequeue_min, with_compare, hm, deref, Result.bind]

/-- The heap built with `std::greater`: after `enqueue(3)`, `enqueue(5)` on a fresh heap
`get_min()` has no result; and on the heap that holds the root 3 with `min_node` at it,
`enqueue(5)` leaves `min_node` at 3, so that `get_min()` returns 3 and not 5. -/
theorem greater_comparator_example :
    (∃ h : fib_heap, run (fib_heap.construct std_greater) [.enqueue 3, .enqueue 5]
        = .value h ∧ h.held = {5, 3} ∧ get_min h = .undefined) ∧
    (enqueue { compare := std_greater, n := 1, min_node := .pos 0,
               root_list := [new_node 3] } 5).bind get_min = .value 3 :=
  ⟨⟨_, rfl, by decide, rfl⟩, rfl⟩

/-- On a heap whose `min_node` designates a root, `enqueue(v)` returns and increments
`size()` modulo `2 ^ 32`. -/
theorem enqueue_increments_size_when_min_at_root (h : fib_heap) (v : Int) (p : Nat)
    (hm : h.min_node = .pos p) (hp : p < h.root_list.length) :
    ∃ h1 : fib_heap, enqueue h v = .value h1 ∧ h1.size = (h.size + 1) % size_type_mod := by
  have hz : (h.root_list ++ [new_node v])[p]? = some (h.root_list[p]) := by
    rw [List.getElem?_append_left hp, List.getElem?_eq_getElem hp]
  unfold enqueue
  simp only [hm, deref, hz]
  by_cases hlt : v < (h.root_list[p]).key
  · rw [if_pos hlt]; exact ⟨_, rfl, rfl⟩
  · rw [if_neg hlt]; exact ⟨_, rfl, rfl⟩

/-! ## The structure of the forest -/

/-- On a heap whose `min_node` designates the root `m` at position `p`, `get_min()` after
`enqueue(v)` is `v` when `v < m.key` and `m.key` otherwise. -/
theorem get_min_after_enqueue_at_root (h : fib_heap) (v : Int) (p : Nat) (m : node)
    (hm : h.min_node = .pos p) (hz : h.root_list[p]? = some m) :
    (enqueue h v).bind get_min = .value (if v < m.key then v else m.key) := by
  have hp : p < h.root_list.length := (List.getElem?_eq_some.1 hz).1
  have hz1 : (h.root_list ++ [new_node v])[p]? = some m := by
    rw [List.getElem?_append_left hp, hz]
  have hp1 : p < (h.root_list ++ [new_node v]).length := by
    rw [List.length_append, List.length_singleton]; omega
  have hz2 : ((h.root_list ++ [new_node v]).set p (new_node v))[p]? = some (new_node v) := by
    rw [List.getElem?_set]; simp; omega
  unfold enqueue
  simp only [hm, deref, hz1, reduceCtorEq, if_false]
  by_cases hlt : v < m.key
  · simp only [hlt, if_true, Result.bind, get_min, deref, hz2]
    rfl
  · simp only [hlt, if_false, Result.bind, get_min, deref, hz1]

/-- C14, on the code: on every heap whose `min_node` is `root_list.end()`, the empty heap
included, `enqueue(v)` returns with `min_node` still at `root_list.end()`: the new node is
not designated, and `get_min()` after the call has no result instead of `v`. -/
theorem enqueue_leaves_min_at_end (h : fib_heap) (v : Int) (hm : h.min_node = .end_list) :
    ∃ h1 : fib_heap, enqueue h v = .value h1 ∧ h1.min_node = .end_list ∧
      get_min h1 = .undefined ∧ get_min h1 ≠ .value v := by
  have hg : get_min { h with root_list := new_node v :: h.root_list } = .undefined :=
    get_min_end _ hm
  refine ⟨_, enqueue_end h v hm, hm, hg, ?_⟩
  rw [hg]
  simp

/-- Witness of C14: `enqueue(5)` on the freshly constructed heap. -/
theorem enqueue_leaves_min_at_end_witness :
    (fib_heap.construct std_less).min_node = .end_list ∧
    ∃ h1 : fib_heap, enqueue (fib_heap.construct std_less) 5 = .value h1 ∧
      h1.min_node = .end_list ∧ get_min h1 = .undefined ∧ get_min h1 ≠ .value 5 :=
  ⟨rfl, enqueue_leaves_min_at_end (fib_heap.construct std_less) 5 rfl⟩

/-- The two arguments of every call `Fib_Heap_Link(y, x)` of the collision loop have the
same key: `x.key = y.key` has assigned the key of `y` to `x`. -/
theorem link_arguments_same_key (s : pass) (x : node) (d : Nat) (y2 x2 : node)
    (ha : link_arguments s x d = some (y2, x2)) : x2.key = y2.key := by
  unfold link_arguments at ha
  split at ha
  · simp at ha
  · simp only [Option.some.injEq, Prod.mk.injEq] at ha
    obtain ⟨hy, hx⟩ := ha
    subst hy hx
    split <;> rfl

/-- C16, on the code: on the heap with the roots 3 and 5, `Fib_Heap_Link(y, x)` with `y` the
root 5 and `x` the root 3 erases the root 5 and leaves the root 3 with no child and degree
0; and with the roots 3, 5, 5 it erases both roots 5. -/
theorem link_only_erases :
    (Fib_Heap_Link { compare := std_less, n := 2, min_node := .end_list,
                     root_list := [new_node 3, new_node 5] } (new_node 5) (new_node 3)).root_list
      = [{ key := 3, parent := none, children_list := [], degree := 0 }] ∧
    (Fib_Heap_Link { compare := std_less, n := 3, min_node := .end_list,
                     root_list := [new_node 3, new_node 5, new_node 5] }
        (new_node 5) (new_node 3)).root_list
      = [new_node 3] :=
  ⟨rfl, rfl⟩

/-- C20, on the code: for every element count `n` the initialisation loop of `consolidate`
runs its body with `i = size_of_A`, an index outside the range `0 .. size_of_A - 1` of the
table. -/
theorem init_loop_index_out_of_range (n : Nat) :
    size_of_A n ∈ init_loop_indices n ∧ ¬ (size_of_A n < size_of_A n) ∧
    (List.replicate (size_of_A n + 1) iterator.end_list).length
      = (init_loop_indices n).length := by
  simp [init_loop_indices]

/-! ## Invariants of the reachable states -/

/-- A run that starts with `min_node == root_list.end()` and childless fresh roots ends
with childless fresh roots: every root is a node as `enqueue` creates it. -/
theorem run_end_roots (ops : List Op) :
    ∀ (h h1 : fib_heap), h.min_node = .end_list →
      (∀ x ∈ h.root_list, ∃ v, x = new_node v) → run h ops = .value h1 →
      ∀ x ∈ h1.root_list, ∃ v, x = new_node v := by
  induction ops with
  | nil =>
    intro h h1 _ hroots hr
    simp only [run, Result.value.injEq] at hr
    subst hr
    exact hroots
  | cons op ops ih =>
    intro h h1 hm hroots hr
    cases op with
    | enqueue val =>
      simp only [run, apply_op, enqueue_end h val hm, Result.bind] at hr
      refine ih { h with root_list := new_node val :: h.root_list } h1 hm ?_ hr
      intro x hx
      rcases List.mem_cons.1 hx with hx | hx
      · exact ⟨val, hx⟩
      · exact hroots x hx
    | dequeue_min =>
      simp [run, apply_op, dequeue_min_end h hm, Result.bind] at hr

/-- In every reachable state every root is a node as `enqueue` creates it: no parent
reference, no child, degree 0. -/
theorem reachable_roots (h : fib_heap) (hr : Reachable h) :
    ∀ x ∈ h.root_list, ∃ v, x = new_node v := by
  obtain ⟨comp, ops, hrun⟩ := hr
  exact run_end_roots ops (fib_heap.construct comp) h rfl (by simp [fib_heap.construct]) hrun

/-! ## The Fibonacci bound on the degree -/

theorem fib_pos (d : Nat) : 1 ≤ fib (d + 1) := by
  induction d with
  | zero => simp [fib]
  | succ d ih =>
    rw [fib]
    omega

theorem lt_fib (d : Nat) : d < fib (d + 2) := by
  induction d with
  | zero => simp [fib]
  | succ d ih =>
    have h1 := fib_pos d
    have e : fib (d + 1 + 2) = fib (d + 1) + fib (d + 2) := by rw [fib]
    omega

/-- The Fibonacci numbers grow at least like the powers of 1.618:
`1.618 ^ d ≤ fib (d + 2)`. -/
theorem pow_le_fib (d : Nat) :
    1618 ^ d ≤ fib (d + 2) * 1000 ^ d ∧ 1618 ^ (d + 1) ≤ fib (d + 3) * 1000 ^ (d + 1) := by
  induction d with
  | zero => simp [fib]
  | succ d ih =>
    obtain ⟨h1, h2⟩ := ih
    refine ⟨h2, ?_⟩
    have e1 : fib (d + 1 + 3) = fib (d + 2) + fib (d + 3) := by rw [fib]
    have e2 : (1618 : Nat) ^ (d + 1 + 1) = 1618 * 1618 ^ (d + 1) := by ring
    have e3 : (1000 : Nat) ^ (d + 1 + 1) = 1000 * 1000 ^ (d + 1) := by ring
    have e4 : (1618 : Nat) ^ (d + 1) = 1618 * 1618 ^ d := by ring
    have e5 : (1000 : Nat) ^ (d + 1) = 1000 * 1000 ^ d := by ring
    rw [e1, e2, e3]
    rw [e4, e5] at h2 ⊢
    generalize (1618 : Nat) ^ d = a at h1 h2 ⊢
    generalize (1000 : Nat) ^ d = t at h1 h2 ⊢
    generalize fib (d + 2) = b at h1 h2 ⊢
    generalize fib (d + 3) = c at h1 h2 ⊢
    nlinarith [h1, h2]

theorem pow_le_down (n k : Nat) (hk : 1618 ^ (k + 1) ≤ n * 1000 ^ (k + 1)) :
    1618 ^ k ≤ n * 1000 ^ k := by
  have e1 : (1618 : Nat) ^ (k + 1) = 1618 * 1618 ^ k := by ring
  have e2 : (1000 : Nat) ^ (k + 1) = 1000 * 1000 ^ k := by ring
  rw [e1, e2] at hk
  generalize (1618 : Nat) ^ k = a at hk ⊢
  generalize (1000 : Nat) ^ k = t at hk ⊢
  nlinarith [hk]

theorem pow_le_of_le (n d : Nat) (hd : 1618 ^ d ≤ n * 1000 ^ d) :
    ∀ j, j ≤ d → 1618 ^ j ≤ n * 1000 ^ j := by
  induction d with
  | zero =>
    intro j hj
    have : j = 0 := by omega
    subst this
    exact hd
  | succ d ih =>
    intro j hj
    rcases Nat.lt_or_ge j (d + 1) with hlt | hge
    · exact ih (pow_le_down n d hd) j (by omega)
    · have : j = d + 1 := by omega
      subst this
      exact hd

theorem le_log_floor_from (n : Nat) :
    ∀ (fuel k : Nat), k ≤ log_floor_from n fuel k := by
  intro fuel
  induction fuel with
  | zero => intro k; simp [log_floor_from]
  | succ f ih =>
    intro k
    rw [log_floor_from]
    split
    · have := ih (k + 1); omega
    · exact Nat.le_refl k

theorem log_floor_from_ge (n d : Nat) (hd : ∀ j, j ≤ d → 1618 ^ j ≤ n * 1000 ^ j) :
    ∀ (fuel k : Nat), k ≤ d → d - k ≤ fuel → d ≤ log_floor_from n fuel k := by
  intro fuel
  induction fuel with
  | zero =>
    intro k hk hf
    simp only [log_floor_from]
    omega
  | succ f ih =>
    intro k hk hf
    rw [log_floor_from]
    rcases Nat.lt_or_ge k d with hlt | hge
    · rw [if_pos (hd (k + 1) hlt)]
      exact ih (k + 1) hlt (by omega)
    · split
      · have := le_log_floor_from n f (k + 1); omega
      · omega

/-- A count `m` of at least `fib (d + 2)` has `d ≤ floor(log(m) / log(1.618))`. -/
theorem le_log_floor (m d : Nat) (hm : fib (d + 2) ≤ m) : d ≤ log_floor m := by
  have h1 := (pow_le_fib d).1
  have h2 : 1618 ^ d ≤ m * 1000 ^ d :=
    Nat.le_trans h1 (Nat.mul_le_mul_right _ hm)
  have h3 := lt_fib d
  exact log_floor_from_ge m d (pow_le_of_le m d h2) m 0 (Nat.zero_le d) (by omega)

/-- The index `d = x.degree` of the collision loop and of the store `*A[d] = x` is inside
the table when the root `x` of degree k roots a subtree of at least `fib (k + 2)` nodes
that are counted in `n`: of the indices used on `A`, the last one of the initialisation
loop is the one out of range. -/
theorem root_degree_in_table (x : node) (n : Nat) (hx : fib (x.degree + 2) ≤ n) :
    x.degree < size_of_A n := by
  have hle := le_log_floor n x.degree hx
  unfold size_of_A
  omega

/-! ## The members with the undefined stores as faults: what they do -/

end FibHeap
